import Mathlib

/-!
Verification development for the cocopy compiler front end
(tools/cocopy/cocopy/lib/compiler.py): the Python-to-CocoIL lowering pass
(class Transformer) and the package descriptor resolver (class Loader).

The Python source AST (module pythonparser.ast, imported as py_ast) is
modelled by the PyExpr / PyStmt types below; the CocoIL target AST
(module cocopy.lib.ast) is modelled by Expression / Statement / Member /
Module.  The cocopy.lib.ast, cocopy.lib.pack and cocopy.lib.tokens modules
are not part of the sources; their record shapes and constants are modelled
from the spec and from the compiler's own call sites, and are marked as
such where they matter.
-/

/-! ## Source-language AST (pythonparser)

Every pythonparser node carries a source span with a line and a zero-based
column for both ends; the compiler reads it through node.loc. -/

structure PySpan where
  line : Nat
  col : Nat
  endLine : Nat
  endCol : Nat

/-- Comparison operator nodes of the source AST (py_ast.Eq, py_ast.Is, ...).
The In constructor stands for the comparison operators the compiler's
transform_Compare has no branch for. -/
inductive PyCmpOp where
  | Eq
  | NotEq
  | Is
  | IsNot
  | Gt
  | GtE
  | Lt
  | LtE
  | In

/-- Source expressions.  Node kinds whose handler is not_yet_implemented in
the source carry only their span, since the handler raises before reading
any other field. -/
inductive PyExpr where
  | Attribute (value : PyExpr) (attr : String) (ctx : Option Unit) (loc : PySpan)
  | BinOp (loc : PySpan)
  | BoolOp (loc : PySpan)
  | Call (func : PyExpr) (args : List PyExpr) (loc : PySpan)
  | Compare (left : PyExpr) (ops : List PyCmpOp) (comparators : List PyExpr) (loc : PySpan)
  | DictLit (loc : PySpan)
  | DictComp (loc : PySpan)
  | EllipsisLit (loc : PySpan)
  | GeneratorExp (loc : PySpan)
  | IfExp (test : PyExpr) (body : PyExpr) (orelse : PyExpr) (loc : PySpan)
  | Lambda (loc : PySpan)
  | ListLit (loc : PySpan)
  | ListComp (loc : PySpan)
  | Name (id : String) (ctx : Option Unit) (loc : PySpan)
  | NameConstant (value : String) (loc : PySpan)
  | Num (n : Int) (loc : PySpan)
  | Repr (loc : PySpan)
  | SetLit (loc : PySpan)
  | SetComp (loc : PySpan)
  | Str (s : String) (loc : PySpan)
  | Starred (loc : PySpan)
  | Subscript (loc : PySpan)
  | TupleLit (loc : PySpan)
  | UnaryOp (loc : PySpan)
  | Yield (loc : PySpan)
  | YieldFrom (loc : PySpan)

/-- Source statements.  FunctionDef carries the parameter name list and the
span of its arguments node (node.args); Import carries one name and span per
alias node.  Unsupported kinds carry only their span. -/
inductive PyStmt where
  | Assert (loc : PySpan)
  | Assign (targets : List PyExpr) (value : PyExpr) (loc : PySpan)
  | AugAssign (loc : PySpan)
  | Break (loc : PySpan)
  | ClassDef (name : String) (loc : PySpan)
  | Continue (loc : PySpan)
  | Delete (loc : PySpan)
  | Exec (loc : PySpan)
  | Expr (value : PyExpr) (loc : PySpan)
  | For (loc : PySpan)
  | FunctionDef (name : String) (args : List String) (body : List PyStmt)
      (argsLoc : PySpan) (loc : PySpan)
  | Global (loc : PySpan)
  | If (test : PyExpr) (body : List PyStmt) (orelse : List PyStmt) (loc : PySpan)
  | Import (names : List (String × PySpan)) (loc : PySpan)
  | ImportFrom (loc : PySpan)
  | Nonlocal (loc : PySpan)
  | Pass (loc : PySpan)
  | Print (loc : PySpan)
  | Raise (loc : PySpan)
  | Return (value : Option PyExpr) (loc : PySpan)
  | Try (loc : PySpan)
  | While (loc : PySpan)
  | With (loc : PySpan)

/-! ## Target IR (cocopy.lib.ast)

Modelled from the spec: the cocopy.lib.ast module is not among the sources.
Record shapes follow section 3 of the spec and the constructor call sites in
compiler.py.  Location end positions are optional because the block location
computed by transform_block_stmts can leave the end unset. -/

structure Position where
  line : Nat
  column : Nat

structure Location where
  file : String
  start : Position
  stop : Option Position

structure Identifier where
  ident : String
  loc : Option Location

structure Token where
  tok : String

structure TypeToken where
  tok : String
  loc : Option Location

structure ModuleToken where
  tok : String
  loc : Option Location

/-- IR binary operator tokens (ast.binop_assign and friends). -/
inductive BinOpToken where
  | binop_assign
  | binop_eqeq
  | binop_noteq
  | binop_gt
  | binop_gteq
  | binop_lt
  | binop_lteq

inductive Expression where
  | NullLiteral (loc : Option Location)
  | BoolLiteral (b : Bool) (loc : Option Location)
  | NumberLiteral (value : Int) (loc : Option Location)
  | StringLiteral (value : String) (loc : Option Location)
  | LoadLocationExpression (token : Token) (loc : Option Location)
  | LoadDynamicExpression (name : Expression) (obj : Expression) (loc : Option Location)
  | BinaryOperatorExpression (lhs : Expression) (op : BinOpToken) (rhs : Expression)
      (loc : Option Location)
  | InvokeFunctionExpression (func : Expression) (args : List Expression)
      (loc : Option Location)
  | ConditionalExpression (cond : Expression) (cons : Expression) (altr : Expression)
      (loc : Option Location)

inductive Statement where
  | ExpressionStatement (expr : Expression) (loc : Option Location)
  | Break (loc : Option Location)
  | Continue (loc : Option Location)
  | EmptyStatement (loc : Option Location)
  | ReturnStatement (expr : Expression) (loc : Option Location)
  | IfStatement (cond : Expression) (cons : Statement) (alt : Option Statement)
      (loc : Option Location)
  | Block (stmts : List Statement) (loc : Option Location)

/-- Every IR node exposes its loc attribute; transform_block_stmts reads it
off the statements of a block. -/
def Statement.loc : Statement → Option Location
  | .ExpressionStatement _ l => l
  | .Break l => l
  | .Continue l => l
  | .EmptyStatement l => l
  | .ReturnStatement _ l => l
  | .IfStatement _ _ _ l => l
  | .Block _ l => l

structure LocalVariable where
  name : Identifier
  type : TypeToken
  loc : Option Location

/-- Modelled from the spec: a ModuleProperty carries a name and a type
marker; a ModuleMethod carries a name, an ordered parameter list, a return
type marker and a body block.  The compiler constructs ModuleMethod either
positionally as ModuleMethod(id, args, returnType, loc=...) or by keyword as
ModuleMethod(name, body=...), so params, returnType, body and loc all
default to absent when not passed. -/
inductive Member where
  | ModuleProperty (name : Identifier) (type : TypeToken)
  | ModuleMethod (name : Identifier) (params : List LocalVariable)
      (returnType : Option TypeToken) (body : Option Statement) (loc : Option Location)

def Member.name : Member → Identifier
  | .ModuleProperty n _ => n
  | .ModuleMethod n _ _ _ _ => n

structure Export where
  name : Identifier
  referent : Token

/-- ast.Module; named CocoModule here because Module is taken by the
ambient mathematical library. -/
structure CocoModule where
  name : Identifier
  imports : List ModuleToken
  exports : List (String × Export)
  members : List (String × Member)

/-! ## Well-known tokens (cocopy.lib.tokens)

Modelled from the spec: the tokens module is not among the sources.  The
spec names a dynamic type marker, well-known init and entrypoint method
members, a package/module/member token delimiter, and a module-path name
delimiter replacing the dots of Python module names. -/

def type_dynamic : String := "dynamic"

def func_init : String := ".init"

def func_entrypoint : String := ".entrypoint"

def delim : String := ":"

def name_delim : String := "/"

/-! ## Ordered dictionaries

Python dict with insertion order: assignment to an existing key replaces its
value in place, assignment to a fresh key appends. -/

def dinsert {κ α : Type} [DecidableEq κ] (k : κ) (v : α) : List (κ × α) → List (κ × α)
  | [] => [(k, v)]
  | (k1, v1) :: rest => if k1 = k then (k, v) :: rest else (k1, v1) :: dinsert k v rest

def dlookup {κ α : Type} [DecidableEq κ] (k : κ) : List (κ × α) → Option α
  | [] => none
  | (k1, v1) :: rest => if k1 = k then some v1 else dlookup k rest

/-- Number of entries stored under a key. -/
def countKey {κ α : Type} [DecidableEq κ] (k : κ) (m : List (κ × α)) : Nat :=
  (m.filter (fun q => q.1 = k)).length

def NodupKeys {κ α : Type} (m : List (κ × α)) : Prop :=
  (m.map Prod.fst).Nodup

/-! ## Transformation context and helpers -/

structure ModuleSpec where
  name : String
  file : String

/-- Context: the module spec being transformed, the accumulated globals set,
and the function currently being transformed (None at top level). -/
structure Ctx where
  mod : ModuleSpec
  globals : List String
  func : Option Unit

/-- Errors raised by the pass: not_yet_implemented exceptions, assertion
failures, and the Python runtime errors the source can raise on its own
(unbound names and missing attributes). -/
inductive Err where
  | notYetImplemented (kind : String)
  | assertionFailure (msg : String)
  | nameError (name : String)
  | attributeError (attr : String)

/-- loc_from: absence of a node yields absence of a location; a node yields
a location over the context module's file with columns shifted to 1-based. -/
def loc_from (ctx : Ctx) : Option PySpan → Option Location
  | none => none
  | some sp => some ⟨ctx.mod.file, ⟨sp.line, sp.col + 1⟩, some ⟨sp.endLine, sp.endCol + 1⟩⟩

def ident (ctx : Ctx) (name : String) (node : Option PySpan) : Identifier :=
  ⟨name, loc_from ctx node⟩

def type_token (ctx : Ctx) (tok : String) (node : Option PySpan) : TypeToken :=
  ⟨tok, loc_from ctx node⟩

def current_module_token (pkgName : String) (ctx : Ctx) : String :=
  pkgName ++ delim ++ ctx.mod.name

/-! ## Expression lowering (Transformer.transform_expr and handlers) -/

def transform_expr (ctx : Ctx) : PyExpr → Except Err Expression
  | .Attribute value attr actx loc => do
      -- assert not node.ctx
      if actx.isSome then throw (Err.assertionFailure "Attribute ctx") else
      let obj ← transform_expr ctx value
      pure (.LoadDynamicExpression (.StringLiteral attr none) obj (loc_from ctx (some loc)))
  | .BinOp _ => throw (Err.notYetImplemented "BinOp")
  | .BoolOp _ => throw (Err.notYetImplemented "BoolOp")
  | .Call func _args loc => do
      let f ← transform_expr ctx func
      -- The source builds args = list() and then iterates over that freshly
      -- created empty list rather than over node.args, so no source argument
      -- is ever lowered or appended.
      let args : List Expression := []
      pure (.InvokeFunctionExpression f args (loc_from ctx (some loc)))
  | .Compare left ops comparators loc => do
      -- assert len(node.ops) == 1 and len(node.comparators) == 1
      match ops, comparators with
      | [pyop], [comp] => do
          let lhs ← transform_expr ctx left
          let op ← match pyop with
            | .Eq => pure BinOpToken.binop_eqeq
            | .Is => pure BinOpToken.binop_eqeq
            | .NotEq => pure BinOpToken.binop_noteq
            | .IsNot => pure BinOpToken.binop_noteq
            | .Gt => pure BinOpToken.binop_gt
            | .GtE => pure BinOpToken.binop_gteq
            | .Lt => pure BinOpToken.binop_lt
            | .LtE => pure BinOpToken.binop_lteq
            | .In => throw (Err.assertionFailure "Compare operator In is not supported")
          let rhs ← transform_expr ctx comp
          pure (.BinaryOperatorExpression lhs op rhs (loc_from ctx (some loc)))
      | _, _ => throw (Err.assertionFailure "Multi-comparison operators not yet supported")
  | .DictLit _ => throw (Err.notYetImplemented "Dict")
  | .DictComp _ => throw (Err.notYetImplemented "DictComp")
  | .EllipsisLit _ => throw (Err.notYetImplemented "Ellipsis")
  | .GeneratorExp _ => throw (Err.notYetImplemented "GeneratorExp")
  | .IfExp test body orelse loc => do
      let cond ← transform_expr ctx test
      let cons ← transform_expr ctx body
      let altr ← transform_expr ctx orelse
      pure (.ConditionalExpression cond cons altr (loc_from ctx (some loc)))
  | .Lambda _ => throw (Err.notYetImplemented "Lambda")
  | .ListLit _ => throw (Err.notYetImplemented "List")
  | .ListComp _ => throw (Err.notYetImplemented "ListComp")
  | .Name id nctx loc => do
      -- assert not node.ctx
      if nctx.isSome then throw (Err.assertionFailure "Name ctx") else
      pure (.LoadLocationExpression ⟨id⟩ (loc_from ctx (some loc)))
  | .NameConstant value loc =>
      if value = "None" then pure (.NullLiteral (loc_from ctx (some loc)))
      else if value = "True" then pure (.BoolLiteral true (loc_from ctx (some loc)))
      else if value = "False" then pure (.BoolLiteral false (loc_from ctx (some loc)))
      else throw (Err.assertionFailure "Unexpected name constant value")
  | .Num _ _ =>
      -- The source reads self.value, but the Transformer object has no
      -- attribute named value, so every numeric literal raises
      -- AttributeError instead of producing ast.NumberLiteral(node.n).
      throw (Err.attributeError "value")
  | .Repr _ => throw (Err.notYetImplemented "Repr")
  | .SetLit _ => throw (Err.notYetImplemented "Set")
  | .SetComp _ => throw (Err.notYetImplemented "SetComp")
  | .Str s loc => pure (.StringLiteral s (loc_from ctx (some loc)))
  | .Starred _ => throw (Err.notYetImplemented "Starred")
  | .Subscript _ => throw (Err.notYetImplemented "Subscript")
  | .TupleLit _ => throw (Err.notYetImplemented "Tuple")
  | .UnaryOp _ => throw (Err.notYetImplemented "UnaryOp")
  | .Yield _ => throw (Err.notYetImplemented "Yield")
  | .YieldFrom _ => throw (Err.notYetImplemented "YieldFrom")

/-! ## Statement lowering -/

/-- track_assign from the source tests
isinstance(lhs, py_ast.Name) and self.ctx.func == None,
but its only caller passes the already-lowered IR expression, and an IR
expression is never a pythonparser Name node, so the test is always false
and the globals set is never extended.  Because this is the only write to
the context's globals set and the func marker is saved and restored by
transform_FunctionDef, no handler ever changes the context it is given, and
the embedding passes the context downward only. -/
def track_assign (ctx : Ctx) (_lhs : Expression) : Ctx :=
  ctx

/-- Location propagation for composite blocks (transform_block_stmts lines
235 to 251): file and start are taken from the first statement's location
when it has one; the end is taken from the last statement's location when it
has one; when the first statement has no location but the last does, the
source reads the undefined name loastloc and raises NameError; the location
is recorded only if both the file and the start are truthy. -/
def block_loc : List Statement → Except Err (Option Location)
  | [] => pure none
  | s :: rest =>
      let firstloc := s.loc
      let lastloc := (rest.getLastD s).loc
      match firstloc, lastloc with
      | some fl, some ll =>
          if fl.file = "" then pure none
          else pure (some ⟨fl.file, fl.start, ll.stop⟩)
      | some fl, none =>
          if fl.file = "" then pure none
          else pure (some ⟨fl.file, fl.start, none⟩)
      | none, some _ => throw (Err.nameError "loastloc")
      | none, none => pure none

mutual

def transform_stmt (ctx : Ctx) (node : PyStmt) : Except Err Statement :=
  match node with
  | .Assert _ => throw (Err.notYetImplemented "Assert")
  | .Assign targets value loc =>
      -- assert len(node.targets) == 1
      match targets with
      | [t] => do
          let lhs ← transform_expr ctx t
          let ctx := track_assign ctx lhs
          let rhs ← transform_expr ctx value
          -- the ExpressionStatement wrapper is built without a location
          pure (Statement.ExpressionStatement
            (.BinaryOperatorExpression lhs .binop_assign rhs (loc_from ctx (some loc))) none)
      | _ => throw (Err.assertionFailure "TODO: multi-assignments not yet supported")
  | .AugAssign _ => throw (Err.notYetImplemented "AugAssign")
  | .Break loc => pure (Statement.Break (loc_from ctx (some loc)))
  | .ClassDef _ _ => throw (Err.assertionFailure "TODO: classes in non-top-level positions not yet supported")
  | .Continue loc => pure (Statement.Continue (loc_from ctx (some loc)))
  | .Delete _ => throw (Err.notYetImplemented "Delete")
  | .Exec _ => throw (Err.notYetImplemented "Exec")
  | .Expr value loc => do
      let e ← transform_expr ctx value
      pure (Statement.ExpressionStatement e (loc_from ctx (some loc)))
  | .For _ => throw (Err.notYetImplemented "For")
  | .FunctionDef _ _ _ _ _ => throw (Err.assertionFailure "TODO: functions in non-top-level positions not yet supported")
  | .Global _ => throw (Err.notYetImplemented "Global")
  | .If test body orelse loc => do
      let cond ← transform_expr ctx test
      -- transform_block_stmts, inlined here so that the mutual recursion
      -- stays structural: lower the statements, then propagate the location
      let stmts ← transform_stmts_list ctx body
      let bloc ← block_loc stmts
      let cons := Statement.Block stmts bloc
      match orelse with
      | [] => pure (Statement.IfStatement cond cons none (loc_from ctx (some loc)))
      | _ :: _ =>
          -- the source passes the raw orelse list to transform_stmt, which
          -- has no isinstance branch for a list and asserts
          throw (Err.assertionFailure "Unrecognized statement node: list")
  | .Import _ _ => throw (Err.assertionFailure "TODO: imports in non-top-level positions not yet supported")
  | .ImportFrom _ => throw (Err.notYetImplemented "ImportFrom")
  | .Nonlocal _ => throw (Err.notYetImplemented "Nonlocal")
  | .Pass loc => pure (Statement.EmptyStatement (loc_from ctx (some loc)))
  | .Print _ => throw (Err.notYetImplemented "Print")
  | .Raise _ => throw (Err.notYetImplemented "Raise")
  | .Return value loc =>
      match value with
      | some v => do
          let e ← transform_expr ctx v
          pure (Statement.ReturnStatement e (loc_from ctx (some loc)))
      | none =>
          -- when node.value is absent the source still reads expr, which was
          -- never bound, and raises
          throw (Err.nameError "expr")
  | .Try _ => throw (Err.notYetImplemented "Try")
  | .While _ => throw (Err.notYetImplemented "While")
  | .With _ => throw (Err.notYetImplemented "With")
termination_by structural node

def transform_stmts_list (ctx : Ctx) (nodes : List PyStmt) : Except Err (List Statement) :=
  match nodes with
  | [] => pure []
  | n :: rest => do
      let s ← transform_stmt ctx n
      let ss ← transform_stmts_list ctx rest
      pure (s :: ss)
termination_by structural nodes

end

/-- Transformer.transform_block_stmts: visit all the statement nodes, then
propagate location information based on the inner statements. -/
def transform_block_stmts (ctx : Ctx) (nodes : List PyStmt) : Except Err Statement := do
  let stmts ← transform_stmts_list ctx nodes
  let loc ← block_loc stmts
  pure (Statement.Block stmts loc)

/-! ## Function definitions (Transformer.transform_FunctionDef) -/

/-- transform_FunctionDef: sets the context's func marker, builds the
identifier (with no node, hence no location), one dynamic-typed local
variable per source parameter (each located at the arguments node), lowers
the statement body, and then constructs the ModuleMethod positionally as
ModuleMethod(id, args, type_token(dynamic), loc=...) -- the lowered body is
computed but never passed to the constructor, so the produced method carries
no body.  The func marker is restored on exit. -/
def transform_FunctionDef (ctx : Ctx) (name : String) (argNames : List String)
    (body : List PyStmt) (argsLoc : PySpan) (loc : PySpan) : Except Err Member := do
  let ctx1 : Ctx := { ctx with func := some () }
  let id := ident ctx1 name none
  let args := argNames.map (fun a =>
    LocalVariable.mk (ident ctx1 a none) (type_token ctx1 type_dynamic none)
      (loc_from ctx1 (some argsLoc)))
  let _body ← transform_block_stmts ctx1 body
  pure (Member.ModuleMethod id args (some (type_token ctx1 type_dynamic none)) none
    (loc_from ctx1 (some loc)))

/-! ## Imports (Transformer.transform_Import) -/

/-- transform_Import: each alias contributes one module token with the dots
of the Python module name replaced by the IR name delimiter. -/
def transform_Import (ctx : Ctx) (names : List (String × PySpan)) : List ModuleToken :=
  names.map (fun q => ModuleToken.mk (q.1.replace "." name_delim) (loc_from ctx (some q.2)))

/-- Union into the module's import set, deduplicating by token. -/
def import_union (imports : List ModuleToken) (new : List ModuleToken) : List ModuleToken :=
  new.foldl (fun acc t => if acc.any (fun u => u.tok = t.tok) then acc else acc ++ [t]) imports

/-! ## Module assembly (Transformer.transform_Module) -/

/-- The initializer statement synthesized for the special variable named
double-underscore-name: an assignment of the string literal to a load of
that variable, with no locations. -/
def modname_init : Expression :=
  .BinaryOperatorExpression (.LoadLocationExpression ⟨"__name__"⟩ none) .binop_assign
    (.StringLiteral "__main__" none) none

def modname_init_stmt : Statement :=
  .ExpressionStatement modname_init none

/-- The entrypoint member: a well-known method with an empty block body. -/
def entrypoint_member : Member :=
  .ModuleMethod ⟨func_entrypoint, none⟩ [] none (some (.Block [] none)) none

/-- Accumulator for the top-level statement walk of transform_Module. -/
structure ModState where
  members : List (String × Member)
  initstmts : List Statement
  imports : List ModuleToken

/-- One top-level statement of the module walk: function definitions become
members, class definitions fail (not yet implemented), imports extend the
module's import set, and every other statement is lowered and appended to
the init list. -/
def walk_top_step (ctx : Ctx) (st : ModState) : PyStmt → Except Err ModState
  | .FunctionDef name args fbody argsLoc loc => do
      let func ← transform_FunctionDef ctx name args fbody argsLoc loc
      pure { st with members := dinsert func.name.ident func st.members }
  | .ClassDef _ _ => throw (Err.notYetImplemented "ClassDef")
  | .Import names _ =>
      pure { st with imports := import_union st.imports (transform_Import ctx names) }
  | stmt => do
      let s ← transform_stmt ctx stmt
      pure { st with initstmts := st.initstmts ++ [s] }

def walk_top (ctx : Ctx) : ModState → List PyStmt → Except Err ModState
  | st, [] => pure st
  | st, stmt :: rest => do
      let st1 ← walk_top_step ctx st stmt
      walk_top ctx st1 rest

/-- The globals loop of transform_Module: for every accumulated property
name, add a dynamic module property unless a member of that name already
exists, which is an assertion failure. -/
def add_globals (ctx : Ctx) : List String → List (String × Member) → Except Err (List (String × Member))
  | [], members => pure members
  | p :: rest, members =>
      if (dlookup p members).isSome then
        throw (Err.assertionFailure "Module property unexpectedly clashes with a prior declaration")
      else
        add_globals ctx rest (dinsert p (.ModuleProperty (ident ctx p none) (type_token ctx type_dynamic none)) members)

/-- Transformer.transform_Module: synthesize the module-name property and
its initializer, walk the top-level statements, register the init method
when the init list is non-empty (the synthesized initializer makes it so
always), always register the entrypoint method, add a module property per
accumulated global, and export every member under the fully qualified
token.  The module identifier at the end is built from the name variable
leaked out of the export loop: the last member's name when members exist,
otherwise the module name. -/
def transform_Module (pkgName : String) (spec : ModuleSpec) (body : List PyStmt) :
    Except Err CocoModule := do
  let ctx : Ctx := ⟨spec, [], none⟩
  let members0 := dinsert "__name__"
    (Member.ModuleProperty (ident ctx "__name__" none) (type_token ctx type_dynamic none))
    ([] : List (String × Member))
  let initstmts0 : List Statement := [modname_init_stmt]
  let st ← walk_top ctx ⟨members0, initstmts0, []⟩ body
  let members1 :=
    if st.initstmts.length > 0 then
      dinsert func_init
        (Member.ModuleMethod (ident ctx func_init none) [] none
          (some (.Block st.initstmts none)) none) st.members
    else st.members
  let members2 := dinsert func_entrypoint
    (Member.ModuleMethod (ident ctx func_entrypoint none) [] none
      (some (.Block [] none)) none) members1
  let members3 ← add_globals ctx ctx.globals members2
  let modtok := current_module_token pkgName ctx
  let exports := members3.map (fun q =>
    (q.1, Export.mk (ident ctx q.1 none) ⟨modtok ++ delim ++ q.1⟩))
  let finalName := (members3.map Prod.fst).getLastD spec.name
  pure ⟨ident ctx finalName none, st.imports, exports, members3⟩

/-! ## Package descriptor resolver (class Loader)

Paths are modelled as lists of components from the filesystem root: the
empty list is the root directory, os.path.join(search, filebase) appends one
component, and os.path.normpath(os.path.join(search, "..")) drops the last
component (at the root it stays at the root).  Appending the extension to
the joined base path extends its final component.

The descriptor file formats are external collaborators (pluggable codecs
keyed by extension); reading a candidate path and unmarshaling its contents
are therefore abstracted into one probe function from paths to either
absence (an IOError on open, caught and treated as keep-searching) or the
unmarshaled descriptor dictionary. -/

abbrev FsPath := List String

/-- The unmarshaled descriptor dictionary: d.get("name") and friends. -/
structure PkgDict where
  name : Option String
  description : Option String
  author : Option String
  website : Option String
  license : Option String
  dependencies : Option (List String)
deriving DecidableEq

/-- pack.Package as the loader populates it. -/
structure Package where
  name : String
  description : Option String
  author : Option String
  website : Option String
  license : Option String
  dependencies : Option (List String)
deriving DecidableEq

/-- Python truthiness of d.get("name"): absent or empty means falsy. -/
def nameTruthy : Option String → Bool
  | none => false
  | some s => !s.isEmpty

def mkPackage (d : PkgDict) : Package :=
  ⟨d.name.getD "", d.description, d.author, d.website, d.license, d.dependencies⟩

inductive FileProbe where
  | absent
  | found (d : PkgDict)
deriving DecidableEq

abbrev Cache := List (FsPath × Package)

/-- Result of probing one directory (the two inner loops of loadCore),
together with the log of every path on which a file open was attempted. -/
inductive ProbeRes where
  | cacheHit (pkg : Package) (path : FsPath) (log : List FsPath)
  | loaded (pkg : Package) (path : FsPath) (log : List FsPath)
  | invalid (path : FsPath) (log : List FsPath)
  | nothing (log : List FsPath)
deriving DecidableEq

def ProbeRes.withLog (l : List FsPath) : ProbeRes → ProbeRes
  | .cacheHit pkg p log => .cacheHit pkg p (l ++ log)
  | .loaded pkg p log => .loaded pkg p (l ++ log)
  | .invalid p log => .invalid p (l ++ log)
  | .nothing log => .nothing (l ++ log)

/-- The extension loop of loadCore for one file base: build the candidate
path, return the cached package on a cache hit with no file access,
otherwise try to open: absence continues with the next extension, a found
file whose dictionary lacks a truthy name raises the missing-name error,
and otherwise the package is constructed and searching stops. -/
def probeExts (fs : FsPath → FileProbe) (cache : Cache) (search : FsPath) (filebase : String) :
    List String → ProbeRes
  | [] => .nothing []
  | ext :: rest =>
      let pkgpath := search ++ [filebase ++ ext]
      match dlookup pkgpath cache with
      | some pkg => .cacheHit pkg pkgpath []
      | none =>
          match fs pkgpath with
          | .absent => (probeExts fs cache search filebase rest).withLog [pkgpath]
          | .found d =>
              if nameTruthy d.name then .loaded (mkPackage d) pkgpath [pkgpath]
              else .invalid pkgpath [pkgpath]

/-- The file-base loop of loadCore: file bases are probed in order and the
first non-nothing outcome stops the search in this directory. -/
def probeBases (fs : FsPath → FileProbe) (cache : Cache) (search : FsPath) (exts : List String) :
    List String → ProbeRes
  | [] => .nothing []
  | fb :: rest =>
      match probeExts fs cache search fb exts with
      | .nothing log => (probeBases fs cache search exts rest).withLog log
      | r => r

/-- Outcome of one loadCore call. -/
inductive LoadResult where
  | ok (pkg : Package) (path : FsPath)
  | invalid (path : FsPath)
  | notFound (root : FsPath)
deriving DecidableEq

/-- The while loop of loadCore, with fuel: none means the loop has not
returned within the given number of iterations.  A cache hit returns
without memoizing; a load memoizes the package under the path that
produced it.  When a directory yields nothing and upwards is set, the
source tests base == "/" where base is the joined candidate path
os.path.join(search, last-filebase) -- never the bare search directory --
so the root test compares a path with at least one component against the
root and can never succeed; the search then moves to the parent directory,
which at the filesystem root is the root itself. -/
def loadLoop (fs : FsPath → FileProbe) (fbs exts : List String) (upwards : Bool) (root : FsPath) :
    Nat → Cache → FsPath → Option (LoadResult × Cache × List FsPath)
  | 0, _, _ => none
  | fuel + 1, cache, search =>
      match probeBases fs cache search exts fbs with
      | .cacheHit pkg p log => some (.ok pkg p, cache, log)
      | .loaded pkg p log => some (.ok pkg p, dinsert p pkg cache, log)
      | .invalid p log => some (.invalid p, cache, log)
      | .nothing log =>
          if upwards then
            if (search ++ [fbs.getLastD ""]).isEmpty then some (.notFound root, cache, log)
            else
              match loadLoop fs fbs exts upwards root fuel cache search.dropLast with
              | some (r, c, l) => some (r, c, log ++ l)
              | none => none
          else some (.notFound root, cache, log)

/-- Loader.loadCore over a normalized root. -/
def loadCore (fs : FsPath → FileProbe) (cache : Cache) (root : FsPath)
    (fbs exts : List String) (upwards : Bool) (fuel : Nat) :
    Option (LoadResult × Cache × List FsPath) :=
  loadLoop fs fbs exts upwards root fuel cache root

/-- Modelled from the spec: the descriptor base names of cocopy.lib.pack,
which is not among the sources; project mode searches a single project
descriptor base, dependency mode searches the two bases in the order the
compiler passes them. -/
def coconut_proj_base : String := "Coconut.proj"

def coconut_project_base : String := "Coconut.project"

def coconut_package_base : String := "Coconut.package"

/-- Loader.loadProject: one descriptor name, never walking upward. -/
def loadProject (fs : FsPath → FileProbe) (cache : Cache) (root : FsPath)
    (exts : List String) (fuel : Nat) : Option (LoadResult × Cache × List FsPath) :=
  loadCore fs cache root [coconut_proj_base] exts false fuel

/-- Loader.loadDependency: two descriptor names, walking upward. -/
def loadDependency (fs : FsPath → FileProbe) (cache : Cache) (root : FsPath)
    (exts : List String) (fuel : Nat) : Option (LoadResult × Cache × List FsPath) :=
  loadCore fs cache root [coconut_project_base, coconut_package_base] exts true fuel



/-- A top-level statement that is a function definition or an import (the
two top-level kinds that contribute no init statement). -/
def isDefOrImport : PyStmt → Bool
  | .FunctionDef _ _ _ _ _ => true
  | .Import _ _ => true
  | _ => false

/-- Every path in the log was a cache miss probed on an absent file. -/
def MissAbsent (fs : FsPath → FileProbe) (cache : Cache) (log : List FsPath) : Prop :=
  ∀ q ∈ log, dlookup q cache = none ∧ fs q = FileProbe.absent

/-! ## Dictionary lemmas -/

theorem dlookup_dinsert_self {κ α : Type} [DecidableEq κ] (k : κ) (v : α) (m : List (κ × α)) :
    dlookup k (dinsert k v m) = some v := by
  induction m with
  | nil => simp [dinsert, dlookup]
  | cons q rest ih =>
      by_cases hk : q.1 = k
      · simp [dinsert, dlookup, hk]
      · simp [dinsert, dlookup, hk, ih]

theorem dlookup_dinsert_ne {κ α : Type} [DecidableEq κ] (k k1 : κ) (v : α) (m : List (κ × α))
    (h : k ≠ k1) : dlookup k (dinsert k1 v m) = dlookup k m := by
  have h1 : ¬ (k1 = k) := fun hh => h hh.symm
  induction m with
  | nil => simp [dinsert, dlookup, h1]
  | cons q rest ih =>
      by_cases hk : q.1 = k1
      · rw [dinsert]
        simp only [hk, if_pos]
        rw [dlookup, dlookup]
        simp [h1, hk]
      · rw [dinsert]
        simp only [hk, if_neg, ite_false]
        rw [dlookup, dlookup]
        by_cases hq : q.1 = k
        · simp [hq]
        · simp [hq, ih]

theorem mem_keys_dinsert {κ α : Type} [DecidableEq κ] (a k : κ) (v : α) (m : List (κ × α)) :
    a ∈ (dinsert k v m).map Prod.fst ↔ a = k ∨ a ∈ m.map Prod.fst := by
  induction m with
  | nil => simp [dinsert]
  | cons q rest ih =>
      by_cases hk : q.1 = k
      · rw [dinsert]
        simp only [hk, ite_true, List.map_cons, List.mem_cons]
        constructor
        · intro hc
          rcases hc with rfl | hc
          · exact Or.inl rfl
          · exact Or.inr (Or.inr hc)
        · intro hc
          rcases hc with rfl | hc
          · exact Or.inl rfl
          · rcases hc with hc | hc
            · exact Or.inl (hk ▸ hc)
            · exact Or.inr hc
      · rw [dinsert]
        simp only [hk, ite_false, List.map_cons, List.mem_cons, ih]
        tauto

theorem nodupKeys_dinsert {κ α : Type} [DecidableEq κ] (k : κ) (v : α) (m : List (κ × α))
    (h : NodupKeys m) : NodupKeys (dinsert k v m) := by
  induction m with
  | nil => simp [dinsert, NodupKeys]
  | cons q rest ih =>
      rw [NodupKeys, List.map_cons, List.nodup_cons] at h
      by_cases hk : q.1 = k
      · subst hk
        rw [NodupKeys, dinsert]
        simp only [ite_true, List.map_cons, List.nodup_cons]
        exact h
      · have hrest := ih h.2
        rw [NodupKeys, dinsert]
        simp only [hk, ite_false, List.map_cons, List.nodup_cons]
        refine ⟨?_, hrest⟩
        intro hmem
        rcases (mem_keys_dinsert q.1 k v rest).mp hmem with rfl | hq
        · exact hk rfl
        · exact h.1 hq

theorem countKey_eq_zero_of_not_mem {κ α : Type} [DecidableEq κ] (k : κ) (m : List (κ × α))
    (h : k ∉ m.map Prod.fst) : countKey k m = 0 := by
  induction m with
  | nil => rfl
  | cons q rest ih =>
      rw [List.map_cons, List.mem_cons] at h
      push_neg at h
      have hq : ¬ (q.1 = k) := fun hh => h.1 hh.symm
      have hrest := ih h.2
      rw [countKey] at hrest ⊢
      rw [List.filter_cons_of_neg (by simp [hq])]
      exact hrest

theorem countKey_eq_one {κ α : Type} [DecidableEq κ] (k : κ) (m : List (κ × α))
    (hnd : NodupKeys m) (h : (dlookup k m).isSome) : countKey k m = 1 := by
  induction m with
  | nil => simp [dlookup] at h
  | cons q rest ih =>
      rw [NodupKeys, List.map_cons, List.nodup_cons] at hnd
      by_cases hq : q.1 = k
      · subst hq
        have hz := countKey_eq_zero_of_not_mem q.1 rest hnd.1
        rw [countKey] at hz ⊢
        rw [List.filter_cons_of_pos (by simp)]
        simp [hz]
      · rw [dlookup] at h
        simp only [hq, ite_false, if_false] at h
        have hrest := ih hnd.2 h
        rw [countKey] at hrest ⊢
        rw [List.filter_cons_of_neg (by simp [hq])]
        exact hrest

/-! ## Claim theorems: lowering pass -/

/-- C1: the claim states that lowering a function call produces an
invocation whose argument list contains the lowering of every source
argument in order.  The code instead iterates over the freshly created
empty args list, so the call f(x) lowers to an invocation of the lowered
callee with an empty argument list, dropping the lone argument. -/
theorem transform_Call_drops_arguments :
    transform_expr ⟨⟨"m", "m.py"⟩, [], none⟩
      (.Call (.Name "f" none ⟨1, 0, 1, 1⟩) [.Name "x" none ⟨1, 2, 1, 3⟩] ⟨1, 0, 1, 4⟩) =
    .ok (.InvokeFunctionExpression
      (.LoadLocationExpression ⟨"f"⟩ (some ⟨"m.py", ⟨1, 1⟩, some ⟨1, 2⟩⟩)) []
      (some ⟨"m.py", ⟨1, 1⟩, some ⟨1, 5⟩⟩)) := rfl

/-- C2: the claim states that lowering def f(a): return a yields a
ModuleMethod f with one dynamic parameter a, a dynamic return type marker,
and a body block returning a load of a.  The code computes the lowered body
but constructs the ModuleMethod without passing it, so the produced method
carries name, parameter and return type as claimed but no body at all. -/
theorem transform_FunctionDef_drops_body :
    transform_FunctionDef ⟨⟨"m", "m.py"⟩, [], none⟩ "f" ["a"]
      [.Return (some (.Name "a" none ⟨2, 9, 2, 10⟩)) ⟨2, 2, 2, 10⟩] ⟨1, 6, 1, 7⟩ ⟨1, 0, 2, 10⟩ =
    .ok (.ModuleMethod ⟨"f", none⟩
      [⟨⟨"a", none⟩, ⟨type_dynamic, none⟩, some ⟨"m.py", ⟨1, 7⟩, some ⟨1, 8⟩⟩⟩]
      (some ⟨type_dynamic, none⟩) none (some ⟨"m.py", ⟨1, 1⟩, some ⟨2, 11⟩⟩)) := rfl

/-- C3: the claim states that a top-level bare-name assignment x = "v" puts
x into the globals set and hence into the module members as a dynamic
ModuleProperty.  The code passes the already-lowered left-hand side to
track_assign, whose isinstance test against the source Name class is then
always false, so the module produced for the one-statement module x = "v"
has no member x at all. -/
theorem transform_Module_no_global_property :
    Except.map (fun m => dlookup "x" m.members)
      (transform_Module "p" ⟨"m", "m.py"⟩
        [.Assign [.Name "x" none ⟨1, 0, 1, 1⟩] (.Str "v" ⟨1, 4, 1, 5⟩) ⟨1, 0, 1, 5⟩]) =
    .ok none := rfl

/-- C5: the claim states that a numeric literal lowers to a numeric IR
literal carrying the node's own value.  The code reads self.value on the
Transformer object, which has no such attribute, so lowering the literal 3
raises AttributeError instead of producing NumberLiteral 3. -/
theorem transform_Num_attribute_error :
    transform_expr ⟨⟨"m", "m.py"⟩, [], none⟩ (.Num 3 ⟨1, 0, 1, 1⟩) =
    .error (.attributeError "value") := rfl

/-- C4 counterexample: the claim states that a module whose only top-level
statement is a function definition produces no init member.  The
synthesized module-name initializer is appended to the init list before the
walk, so the init list is never empty and the init member is always
registered: for the module consisting solely of def f(): pass, the produced
module has an init member whose body block holds exactly the synthesized
initializer statement. -/
theorem defs_only_module_has_init_member :
    Except.map (fun m => dlookup func_init m.members)
      (transform_Module "p" ⟨"m", "m.py"⟩
        [.FunctionDef "f" [] [.Pass ⟨2, 2, 2, 6⟩] ⟨1, 6, 1, 6⟩ ⟨1, 0, 2, 6⟩]) =
    .ok (some (.ModuleMethod ⟨func_init, none⟩ [] none
      (some (.Block [modname_init_stmt] none)) none)) := rfl

/-- C7 counterexample: the claim states that a composite block is recorded
with no location at all when either boundary statement lacks a location.
A lowered assignment statement carries no location (its ExpressionStatement
wrapper is built without one), yet the block made of a located pass
statement followed by that assignment is recorded with a location: the
first statement's file and start, and no end. -/
theorem block_with_unlocated_last_has_partial_location :
    transform_block_stmts ⟨⟨"m", "m.py"⟩, [], none⟩
      [.Pass ⟨1, 0, 1, 4⟩,
       .Assign [.Name "x" none ⟨2, 0, 2, 1⟩] (.Str "v" ⟨2, 4, 2, 5⟩) ⟨2, 0, 2, 5⟩] =
    .ok (.Block
      [.EmptyStatement (some ⟨"m.py", ⟨1, 1⟩, some ⟨1, 5⟩⟩),
       .ExpressionStatement
         (.BinaryOperatorExpression
           (.LoadLocationExpression ⟨"x"⟩ (some ⟨"m.py", ⟨2, 1⟩, some ⟨2, 2⟩⟩))
           .binop_assign
           (.StringLiteral "v" (some ⟨"m.py", ⟨2, 5⟩, some ⟨2, 6⟩⟩))
           (some ⟨"m.py", ⟨2, 1⟩, some ⟨2, 6⟩⟩)) none]
      (some ⟨"m.py", ⟨1, 1⟩, none⟩)) := rfl

/-- C7 amended: when the first statement of a composite block carries a
location with a non-empty file, the block is always recorded with a
location whose file and start come from the first statement; its end is the
last statement's end when the last statement has a location and is absent
otherwise, yielding a partial location rather than no location. -/
theorem block_loc_first_located (s : Statement) (rest : List Statement) (fl : Location)
    (h1 : s.loc = some fl) (h2 : fl.file ≠ "") :
    block_loc (s :: rest) =
      .ok (some ⟨fl.file, fl.start, ((rest.getLastD s).loc).bind Location.stop⟩) := by
  rw [block_loc, h1]
  cases hl : (rest.getLastD s).loc with
  | none =>
      simp only [h2, if_false, ite_false]
      rfl
  | some ll =>
      simp only [h2, if_false, ite_false]
      rfl

/-- Witness for the amended C7 theorem at a concrete block: a located empty
statement followed by an unlocated expression statement. -/
theorem block_loc_first_located_witness :
    (Statement.EmptyStatement (some ⟨"f.py", ⟨1, 1⟩, some ⟨1, 5⟩⟩)).loc =
        some ⟨"f.py", ⟨1, 1⟩, some ⟨1, 5⟩⟩ ∧
    ("f.py" : String) ≠ "" ∧
    block_loc [Statement.EmptyStatement (some ⟨"f.py", ⟨1, 1⟩, some ⟨1, 5⟩⟩),
               Statement.ExpressionStatement (.StringLiteral "v" none) none] =
      .ok (some ⟨"f.py", ⟨1, 1⟩, none⟩) :=
  ⟨rfl, by decide,
   block_loc_first_located (Statement.EmptyStatement (some ⟨"f.py", ⟨1, 1⟩, some ⟨1, 5⟩⟩))
     [Statement.ExpressionStatement (.StringLiteral "v" none) none]
     ⟨"f.py", ⟨1, 1⟩, some ⟨1, 5⟩⟩ rfl (by decide)⟩

/-! ## Claim theorems: module assembly -/

theorem except_bind_ok {ε α β : Type} {e : Except ε α} {f : α → Except ε β} {b : β}
    (h : (e >>= f) = .ok b) : ∃ a, e = .ok a ∧ f a = .ok b := by
  cases e with
  | error err => exact absurd h (by simp [Bind.bind, Except.bind])
  | ok a => exact ⟨a, rfl, by simpa [Bind.bind, Except.bind] using h⟩


theorem walk_top_step_invariants (ctx : Ctx) (st st1 : ModState) (stmt : PyStmt)
    (h : walk_top_step ctx st stmt = .ok st1) :
    (NodupKeys st.members → NodupKeys st1.members) ∧
    (∃ suf, st1.initstmts = st.initstmts ++ suf) := by
  cases stmt
  case FunctionDef n a b al l =>
    simp only [walk_top_step] at h
    obtain ⟨func, hf, hp⟩ := except_bind_ok h
    simp only [pure, Except.pure, Except.ok.injEq] at hp
    subst hp
    exact ⟨fun hnd => nodupKeys_dinsert _ _ _ hnd, ⟨[], by simp⟩⟩
  case ClassDef n l =>
    simp only [walk_top_step] at h
    exact Except.noConfusion h
  case Import names l =>
    simp only [walk_top_step] at h
    simp only [pure, Except.pure, Except.ok.injEq] at h
    subst h
    exact ⟨fun hnd => hnd, ⟨[], by simp⟩⟩
  all_goals (
    simp only [walk_top_step] at h
    obtain ⟨s, hs, hp⟩ := except_bind_ok h
    simp only [pure, Except.pure, Except.ok.injEq] at hp
    subst hp
    exact ⟨fun hnd => hnd, ⟨[s], rfl⟩⟩)

theorem walk_top_invariants (ctx : Ctx) (body : List PyStmt) :
    ∀ (st st1 : ModState), walk_top ctx st body = .ok st1 →
    (NodupKeys st.members → NodupKeys st1.members) ∧
    (∃ suf, st1.initstmts = st.initstmts ++ suf) := by
  induction body with
  | nil =>
      intro st st1 h
      simp only [walk_top, pure, Except.pure, Except.ok.injEq] at h
      subst h
      exact ⟨fun hnd => hnd, ⟨[], by simp⟩⟩
  | cons stmt rest ih =>
      intro st st1 h
      simp only [walk_top] at h
      obtain ⟨stm, hstep, hrest⟩ := except_bind_ok h
      obtain ⟨hA, ⟨suf1, hsuf1⟩⟩ := walk_top_step_invariants ctx st stm stmt hstep
      obtain ⟨hA2, ⟨suf2, hsuf2⟩⟩ := ih stm st1 hrest
      refine ⟨fun hnd => hA2 (hA hnd), ⟨suf1 ++ suf2, ?_⟩⟩
      rw [hsuf2, hsuf1, List.append_assoc]

theorem walk_top_step_init_unchanged (ctx : Ctx) (st st1 : ModState) (stmt : PyStmt)
    (hk : isDefOrImport stmt = true) (h : walk_top_step ctx st stmt = .ok st1) :
    st1.initstmts = st.initstmts := by
  cases stmt
  case FunctionDef n a b al l =>
    simp only [walk_top_step] at h
    obtain ⟨func, hf, hp⟩ := except_bind_ok h
    simp only [pure, Except.pure, Except.ok.injEq] at hp
    subst hp
    rfl
  case Import names l =>
    simp only [walk_top_step] at h
    simp only [pure, Except.pure, Except.ok.injEq] at h
    subst h
    rfl
  all_goals exact absurd hk (by simp [isDefOrImport])

theorem walk_top_init_unchanged (ctx : Ctx) (body : List PyStmt) :
    ∀ (st st1 : ModState), (∀ s ∈ body, isDefOrImport s = true) →
    walk_top ctx st body = .ok st1 → st1.initstmts = st.initstmts := by
  induction body with
  | nil =>
      intro st st1 _ h
      simp only [walk_top, pure, Except.pure, Except.ok.injEq] at h
      subst h
      rfl
  | cons stmt rest ih =>
      intro st st1 hall h
      simp only [walk_top] at h
      obtain ⟨stm, hstep, hrest⟩ := except_bind_ok h
      have h1 := walk_top_step_init_unchanged ctx st stm stmt (hall stmt (by simp)) hstep
      have h2 := ih stm st1 (fun s hs => hall s (by simp [hs])) hrest
      rw [h2, h1]

theorem transform_Module_members_shape (pkgName : String) (spec : ModuleSpec) (body : List PyStmt)
    (m : CocoModule) (h : transform_Module pkgName spec body = .ok m) :
    ∃ st : ModState,
      walk_top ⟨spec, [], none⟩
        ⟨dinsert "__name__" (.ModuleProperty ⟨"__name__", none⟩ ⟨type_dynamic, none⟩) [],
         [modname_init_stmt], []⟩ body = .ok st ∧
      m.members = dinsert func_entrypoint
        (.ModuleMethod ⟨func_entrypoint, none⟩ [] none (some (.Block [] none)) none)
        (if st.initstmts.length > 0 then
           dinsert func_init
             (.ModuleMethod ⟨func_init, none⟩ [] none (some (.Block st.initstmts none)) none)
             st.members
         else st.members) := by
  simp only [transform_Module] at h
  obtain ⟨st, hw, hrest⟩ := except_bind_ok h
  refine ⟨st, hw, ?_⟩
  simp only [add_globals] at hrest
  obtain ⟨ms, hms, hp⟩ := except_bind_ok hrest
  simp only [pure, Except.pure, Except.ok.injEq] at hms hp
  subst hp
  subst hms
  rfl

/-- C10: every module the lowering pass produces contains exactly one
entrypoint method member with an empty block body, for every input module
(including one with zero top-level statements) and regardless of whether an
init member exists. -/
theorem transform_Module_entrypoint (pkgName : String) (spec : ModuleSpec) (body : List PyStmt)
    (m : CocoModule) (h : transform_Module pkgName spec body = .ok m) :
    dlookup func_entrypoint m.members =
      some (.ModuleMethod ⟨func_entrypoint, none⟩ [] none (some (.Block [] none)) none) ∧
    countKey func_entrypoint m.members = 1 := by
  obtain ⟨st, hw, hm⟩ := transform_Module_members_shape pkgName spec body m h
  obtain ⟨hA, ⟨suf, hsuf⟩⟩ := walk_top_invariants ⟨spec, [], none⟩ body _ st hw
  have hndst : NodupKeys st.members := hA (by simp [dinsert, NodupKeys])
  have hnd1 : NodupKeys (if st.initstmts.length > 0 then
      dinsert func_init
        (Member.ModuleMethod ⟨func_init, none⟩ [] none (some (.Block st.initstmts none)) none)
        st.members
    else st.members) := by
    split
    · exact nodupKeys_dinsert _ _ _ hndst
    · exact hndst
  have hnd2 : NodupKeys m.members := by
    rw [hm]
    exact nodupKeys_dinsert _ _ _ hnd1
  constructor
  · rw [hm]
    exact dlookup_dinsert_self _ _ _
  · refine countKey_eq_one _ _ hnd2 ?_
    rw [hm, dlookup_dinsert_self]
    rfl

/-- C4 amended: a module whose top-level statements are only function
definitions and imports still produces an init member, because the
synthesized module-name initializer is always appended to the init list
before the walk; the init member's body block then holds exactly that one
synthesized statement.  (The init method is indeed registered only when the
init list is non-empty, but the init list is never empty.) -/
theorem transform_Module_init_of_defs_only (pkgName : String) (spec : ModuleSpec)
    (body : List PyStmt) (m : CocoModule)
    (hall : ∀ s ∈ body, isDefOrImport s = true)
    (h : transform_Module pkgName spec body = .ok m) :
    dlookup func_init m.members =
      some (.ModuleMethod ⟨func_init, none⟩ [] none
        (some (.Block [modname_init_stmt] none)) none) := by
  obtain ⟨st, hw, hm⟩ := transform_Module_members_shape pkgName spec body m h
  have hinit : st.initstmts = [modname_init_stmt] :=
    walk_top_init_unchanged ⟨spec, [], none⟩ body _ st hall hw
  rw [hm, hinit]
  rw [if_pos (by simp)]
  rw [dlookup_dinsert_ne _ _ _ _ (by decide)]
  exact dlookup_dinsert_self _ _ _

/-- Witness for C10 at the empty module. -/
theorem transform_Module_entrypoint_witness :
    ∃ m : CocoModule, transform_Module "p" ⟨"m", "m.py"⟩ [] = .ok m ∧
      dlookup func_entrypoint m.members =
        some (.ModuleMethod ⟨func_entrypoint, none⟩ [] none (some (.Block [] none)) none) ∧
      countKey func_entrypoint m.members = 1 :=
  ⟨_, rfl, (transform_Module_entrypoint "p" ⟨"m", "m.py"⟩ [] _ rfl).1,
    (transform_Module_entrypoint "p" ⟨"m", "m.py"⟩ [] _ rfl).2⟩

/-- Witness for the amended C4 at a one-definition module. -/
theorem transform_Module_init_of_defs_only_witness :
    ∃ m : CocoModule,
      (∀ s ∈ [PyStmt.FunctionDef "f" [] [.Pass ⟨2, 2, 2, 6⟩] ⟨1, 6, 1, 6⟩ ⟨1, 0, 2, 6⟩],
        isDefOrImport s = true) ∧
      transform_Module "p" ⟨"m", "m.py"⟩
        [PyStmt.FunctionDef "f" [] [.Pass ⟨2, 2, 2, 6⟩] ⟨1, 6, 1, 6⟩ ⟨1, 0, 2, 6⟩] = .ok m ∧
      dlookup func_init m.members =
        some (.ModuleMethod ⟨func_init, none⟩ [] none
          (some (.Block [modname_init_stmt] none)) none) := by
  obtain ⟨m, hm⟩ : ∃ m : CocoModule,
      transform_Module "p" ⟨"m", "m.py"⟩
        [PyStmt.FunctionDef "f" [] [.Pass ⟨2, 2, 2, 6⟩] ⟨1, 6, 1, 6⟩ ⟨1, 0, 2, 6⟩] = .ok m :=
    ⟨_, rfl⟩
  exact ⟨m, by decide, hm,
    transform_Module_init_of_defs_only "p" ⟨"m", "m.py"⟩ _ m (by decide) hm⟩

/-! ## Claim theorems: descriptor resolver -/

theorem append_singleton_isEmpty (l : List String) (x : String) :
    (l ++ [x]).isEmpty = false := by
  cases l <;> rfl

theorem probeExts_all_absent (search : FsPath) (fb : String) :
    ∀ exts : List String, probeExts (fun _ => .absent) [] search fb exts =
      .nothing (exts.map (fun e => search ++ [fb ++ e])) := by
  intro exts
  induction exts with
  | nil => rfl
  | cons e rest ih =>
      simp only [probeExts, dlookup, ih, ProbeRes.withLog, List.map_cons]
      rfl

theorem probeBases_all_absent (search : FsPath) (exts : List String) :
    ∀ fbs : List String, ∃ log, probeBases (fun _ => .absent) [] search exts fbs =
      .nothing log := by
  intro fbs
  induction fbs with
  | nil => exact ⟨[], rfl⟩
  | cons fb rest ih =>
      obtain ⟨log2, hlog2⟩ := ih
      refine ⟨exts.map (fun e => search ++ [fb ++ e]) ++ log2, ?_⟩
      simp only [probeBases, probeExts_all_absent, hlog2, ProbeRes.withLog]

/-- C6: the claim states that dependency-mode resolution terminates for
every starting root, walking to parents only while not at the filesystem
root, and failing with a package-not-found error when exhausted.  The code
instead compares the joined candidate base path (never equal to the root
string) against the root, and taking the parent of the root yields the root
again, so on a filesystem with no descriptor anywhere an upwards search
never returns at all, for every amount of fuel and from every starting
directory. -/
theorem loadCore_dependency_search_diverges :
    ∀ (fuel : Nat) (search root : FsPath) (fb : String) (fbs exts : List String),
    loadLoop (fun _ => .absent) (fb :: fbs) exts true root fuel [] search = none := by
  intro fuel
  induction fuel with
  | zero => intro search root fb fbs exts; rfl
  | succ n ih =>
      intro search root fb fbs exts
      obtain ⟨log, hpb⟩ := probeBases_all_absent search exts (fb :: fbs)
      simp only [loadLoop, hpb, append_singleton_isEmpty, ih, if_true]
      simp

theorem probeExts_invalid_of_bad_name (fs : FsPath → FileProbe) (cache : Cache)
    (search : FsPath) (fb : String) (e : String) (es2 : List String) (d : PkgDict)
    (hmiss : dlookup (search ++ [fb ++ e]) cache = none)
    (hfound : fs (search ++ [fb ++ e]) = .found d)
    (hname : nameTruthy d.name = false) :
    ∀ es1 : List String,
    (∀ x ∈ es1, dlookup (search ++ [fb ++ x]) cache = none ∧ fs (search ++ [fb ++ x]) = .absent) →
    probeExts fs cache search fb (es1 ++ e :: es2) =
      .invalid (search ++ [fb ++ e])
        (es1.map (fun x => search ++ [fb ++ x]) ++ [search ++ [fb ++ e]]) := by
  intro es1
  induction es1 with
  | nil =>
      intro _
      simp only [List.nil_append, probeExts, hmiss, hfound, hname, List.map_nil]
      simp [hname]
  | cons x rest ih =>
      intro hprev
      have hx := hprev x (by simp)
      have hr := ih (fun y hy => hprev y (by simp [hy]))
      simp only [List.cons_append, probeExts, hx.1, hx.2, List.append_eq, hr,
        ProbeRes.withLog, List.map_cons]
      simp

/-- C8: if the resolver finds and parses a descriptor file whose dictionary
lacks a truthy name field, resolution fails at once with the missing-name
error naming that path: no further extension, base name or parent directory
is probed and no not-found error is reported.  Stated for a candidate under
the first file base, with every earlier extension candidate uncached and
absent. -/
theorem loadCore_missing_name_fatal (fs : FsPath → FileProbe) (cache : Cache)
    (search root : FsPath) (fb : String) (fbs : List String) (e : String)
    (es1 es2 : List String) (d : PkgDict) (up : Bool) (fuel : Nat)
    (hprev : ∀ x ∈ es1, dlookup (search ++ [fb ++ x]) cache = none ∧
      fs (search ++ [fb ++ x]) = .absent)
    (hmiss : dlookup (search ++ [fb ++ e]) cache = none)
    (hfound : fs (search ++ [fb ++ e]) = .found d)
    (hname : nameTruthy d.name = false) :
    loadLoop fs (fb :: fbs) (es1 ++ e :: es2) up root (fuel + 1) cache search =
      some (.invalid (search ++ [fb ++ e]), cache,
        es1.map (fun x => search ++ [fb ++ x]) ++ [search ++ [fb ++ e]]) := by
  have hpe := probeExts_invalid_of_bad_name fs cache search fb e es2 d hmiss hfound hname es1 hprev
  simp only [loadLoop, probeBases, hpe]


theorem MissAbsent_insert {fs : FsPath → FileProbe} {cache : Cache} {log : List FsPath}
    (h : MissAbsent fs cache log) {p0 : FsPath} {d0 : PkgDict} (hfound : fs p0 = .found d0)
    (pkg0 : Package) : MissAbsent fs (dinsert p0 pkg0 cache) log := by
  intro q hq
  obtain ⟨h1, h2⟩ := h q hq
  have hne : q ≠ p0 := by
    intro he
    rw [he, hfound] at h2
    cases h2
  exact ⟨by rw [dlookup_dinsert_ne _ _ _ _ hne]; exact h1, h2⟩

theorem probeExts_cacheHit_inv (fs : FsPath → FileProbe) (cache : Cache) (search : FsPath)
    (fb : String) : ∀ (exts : List String) (pkg : Package) (p : FsPath) (log : List FsPath),
    probeExts fs cache search fb exts = .cacheHit pkg p log →
    dlookup p cache = some pkg ∧ MissAbsent fs cache log := by
  intro exts
  induction exts with
  | nil => intro pkg p log h; exact ProbeRes.noConfusion h
  | cons e rest ih =>
      intro pkg p log h
      simp only [probeExts] at h
      cases hc : dlookup (search ++ [fb ++ e]) cache with
      | some pk =>
          simp only [hc] at h
          injection h with h1 h2 h3
          subst h1; subst h2; subst h3
          exact ⟨hc, by intro q hq; cases hq⟩
      | none =>
          simp only [hc] at h
          cases hf : fs (search ++ [fb ++ e]) with
          | absent =>
              simp only [hf] at h
              cases hrec : probeExts fs cache search fb rest with
              | cacheHit pk2 p2 log2 =>
                  rw [hrec] at h
                  simp only [ProbeRes.withLog] at h
                  injection h with h1 h2 h3
                  subst h1; subst h2; subst h3
                  obtain ⟨hl, hm⟩ := ih _ _ _ hrec
                  refine ⟨hl, ?_⟩
                  intro q hq
                  rcases List.mem_cons.mp (by simpa using hq) with rfl | hq2
                  · exact ⟨hc, hf⟩
                  · exact hm q hq2
              | loaded pk2 p2 log2 => rw [hrec] at h; simp [ProbeRes.withLog] at h
              | invalid p2 log2 => rw [hrec] at h; simp [ProbeRes.withLog] at h
              | nothing log2 => rw [hrec] at h; simp [ProbeRes.withLog] at h
          | found d =>
              simp only [hf] at h
              by_cases hn : nameTruthy d.name
              · simp [hn] at h
              · simp [hn] at h

theorem probeExts_loaded_rerun (fs : FsPath → FileProbe) (cache : Cache) (search : FsPath)
    (fb : String) : ∀ (exts : List String) (pkg : Package) (p : FsPath) (log : List FsPath),
    probeExts fs cache search fb exts = .loaded pkg p log →
    ∃ log0 d, log = log0 ++ [p] ∧ fs p = .found d ∧ MissAbsent fs cache log0 ∧
      probeExts fs (dinsert p pkg cache) search fb exts = .cacheHit pkg p log0 := by
  intro exts
  induction exts with
  | nil => intro pkg p log h; exact ProbeRes.noConfusion h
  | cons e rest ih =>
      intro pkg p log h
      simp only [probeExts] at h
      cases hc : dlookup (search ++ [fb ++ e]) cache with
      | some pk =>
          simp only [hc] at h
          exact ProbeRes.noConfusion h
      | none =>
          simp only [hc] at h
          cases hf : fs (search ++ [fb ++ e]) with
          | absent =>
              simp only [hf] at h
              cases hrec : probeExts fs cache search fb rest with
              | cacheHit pk2 p2 log2 => rw [hrec] at h; simp [ProbeRes.withLog] at h
              | loaded pk2 p2 log2 =>
                  rw [hrec] at h
                  simp only [ProbeRes.withLog] at h
                  injection h with h1 h2 h3
                  subst h1; subst h2; subst h3
                  obtain ⟨log0, d, hlog, hfp, hma, hrerun⟩ := ih _ _ _ hrec
                  have hne : (search ++ [fb ++ e]) ≠ p2 := by
                    intro he
                    rw [he, hfp] at hf
                    cases hf
                  have hl2 : dlookup (search ++ [fb ++ e]) (dinsert p2 pk2 cache) = none := by
                    rw [dlookup_dinsert_ne _ _ _ _ hne]
                    exact hc
                  refine ⟨(search ++ [fb ++ e]) :: log0, d, by simp [hlog], hfp, ?_, ?_⟩
                  · intro q hq
                    rcases List.mem_cons.mp hq with rfl | hq2
                    · exact ⟨hc, hf⟩
                    · exact hma q hq2
                  · simp only [probeExts, hl2, hf, hrerun, ProbeRes.withLog]
                    simp
              | invalid p2 log2 => rw [hrec] at h; simp [ProbeRes.withLog] at h
              | nothing log2 => rw [hrec] at h; simp [ProbeRes.withLog] at h
          | found d =>
              simp only [hf] at h
              by_cases hn : nameTruthy d.name
              · simp only [hn, if_true] at h
                injection h with h1 h2 h3
                subst h1; subst h2; subst h3
                refine ⟨[], d, by simp, hf, ?_, ?_⟩
                · intro q hq
                  cases hq
                · simp only [probeExts, dlookup_dinsert_self]
              · simp [hn] at h

theorem probeExts_nothing_rerun (fs : FsPath → FileProbe) (cache : Cache) (search : FsPath)
    (fb : String) : ∀ (exts : List String) (log : List FsPath),
    probeExts fs cache search fb exts = .nothing log →
    MissAbsent fs cache log ∧
    ∀ (p0 : FsPath) (pkg0 : Package) (d0 : PkgDict), fs p0 = .found d0 →
      probeExts fs (dinsert p0 pkg0 cache) search fb exts = .nothing log := by
  intro exts
  induction exts with
  | nil =>
      intro log h
      injection h with h1
      subst h1
      constructor
      · intro q hq
        cases hq
      · intro p0 pkg0 d0 hf0
        rfl
  | cons e rest ih =>
      intro log h
      simp only [probeExts] at h
      cases hc : dlookup (search ++ [fb ++ e]) cache with
      | some pk =>
          simp only [hc] at h
          exact ProbeRes.noConfusion h
      | none =>
          simp only [hc] at h
          cases hf : fs (search ++ [fb ++ e]) with
          | absent =>
              simp only [hf] at h
              cases hrec : probeExts fs cache search fb rest with
              | cacheHit pk2 p2 log2 => rw [hrec] at h; simp [ProbeRes.withLog] at h
              | loaded pk2 p2 log2 => rw [hrec] at h; simp [ProbeRes.withLog] at h
              | invalid p2 log2 => rw [hrec] at h; simp [ProbeRes.withLog] at h
              | nothing log2 =>
                  rw [hrec] at h
                  simp only [ProbeRes.withLog] at h
                  injection h with h1
                  subst h1
                  obtain ⟨hma, hrerun⟩ := ih _ hrec
                  constructor
                  · intro q hq
                    rcases List.mem_cons.mp (by simpa using hq) with rfl | hq2
                    · exact ⟨hc, hf⟩
                    · exact hma q hq2
                  · intro p0 pkg0 d0 hf0
                    have hne : (search ++ [fb ++ e]) ≠ p0 := by
                      intro he
                      rw [he, hf0] at hf
                      cases hf
                    have hl2 : dlookup (search ++ [fb ++ e]) (dinsert p0 pkg0 cache) = none := by
                      rw [dlookup_dinsert_ne _ _ _ _ hne]
                      exact hc
                    simp only [probeExts, hl2, hf, hrerun p0 pkg0 d0 hf0, ProbeRes.withLog]
          | found d =>
              simp only [hf] at h
              by_cases hn : nameTruthy d.name
              · simp [hn] at h
              · simp [hn] at h

theorem probeBases_cacheHit_inv (fs : FsPath → FileProbe) (cache : Cache) (search : FsPath)
    (exts : List String) : ∀ (fbs : List String) (pkg : Package) (p : FsPath) (log : List FsPath),
    probeBases fs cache search exts fbs = .cacheHit pkg p log →
    dlookup p cache = some pkg ∧ MissAbsent fs cache log := by
  intro fbs
  induction fbs with
  | nil => intro pkg p log h; exact ProbeRes.noConfusion h
  | cons fb rest ih =>
      intro pkg p log h
      simp only [probeBases] at h
      cases hpe : probeExts fs cache search fb exts with
      | cacheHit pk2 p2 log2 =>
          simp only [hpe] at h
          injection h with h1 h2 h3
          subst h1; subst h2; subst h3
          exact probeExts_cacheHit_inv fs cache search fb exts _ _ _ hpe
      | loaded pk2 p2 log2 =>
          simp only [hpe] at h
          exact ProbeRes.noConfusion h
      | invalid p2 log2 =>
          simp only [hpe] at h
          exact ProbeRes.noConfusion h
      | nothing log2 =>
          simp only [hpe] at h
          cases hrec : probeBases fs cache search exts rest with
          | cacheHit pk3 p3 log3 =>
              rw [hrec] at h
              simp only [ProbeRes.withLog] at h
              injection h with h1 h2 h3
              subst h1; subst h2; subst h3
              obtain ⟨hl, hm⟩ := ih _ _ _ hrec
              obtain ⟨hm2, _⟩ := probeExts_nothing_rerun fs cache search fb exts _ hpe
              refine ⟨hl, ?_⟩
              intro q hq
              rcases List.mem_append.mp hq with hq1 | hq2
              · exact hm2 q hq1
              · exact hm q hq2
          | loaded pk3 p3 log3 => rw [hrec] at h; simp [ProbeRes.withLog] at h
          | invalid p3 log3 => rw [hrec] at h; simp [ProbeRes.withLog] at h
          | nothing log3 => rw [hrec] at h; simp [ProbeRes.withLog] at h

theorem probeBases_loaded_rerun (fs : FsPath → FileProbe) (cache : Cache) (search : FsPath)
    (exts : List String) : ∀ (fbs : List String) (pkg : Package) (p : FsPath) (log : List FsPath),
    probeBases fs cache search exts fbs = .loaded pkg p log →
    ∃ log0 d, log = log0 ++ [p] ∧ fs p = .found d ∧ MissAbsent fs cache log0 ∧
      probeBases fs (dinsert p pkg cache) search exts fbs = .cacheHit pkg p log0 := by
  intro fbs
  induction fbs with
  | nil => intro pkg p log h; exact ProbeRes.noConfusion h
  | cons fb rest ih =>
      intro pkg p log h
      simp only [probeBases] at h
      cases hpe : probeExts fs cache search fb exts with
      | cacheHit pk2 p2 log2 =>
          simp only [hpe] at h
          exact ProbeRes.noConfusion h
      | loaded pk2 p2 log2 =>
          simp only [hpe] at h
          injection h with h1 h2 h3
          subst h1; subst h2; subst h3
          obtain ⟨log0, d, hlog, hfp, hma, hrerun⟩ :=
            probeExts_loaded_rerun fs cache search fb exts _ _ _ hpe
          refine ⟨log0, d, hlog, hfp, hma, ?_⟩
          simp only [probeBases, hrerun]
      | invalid p2 log2 =>
          simp only [hpe] at h
          exact ProbeRes.noConfusion h
      | nothing log2 =>
          simp only [hpe] at h
          cases hrec : probeBases fs cache search exts rest with
          | cacheHit pk3 p3 log3 => rw [hrec] at h; simp [ProbeRes.withLog] at h
          | loaded pk3 p3 log3 =>
              rw [hrec] at h
              simp only [ProbeRes.withLog] at h
              injection h with h1 h2 h3
              subst h1; subst h2; subst h3
              obtain ⟨log0, d, hlog, hfp, hma, hrerun⟩ := ih _ _ _ hrec
              obtain ⟨hm2, hre2⟩ := probeExts_nothing_rerun fs cache search fb exts _ hpe
              refine ⟨log2 ++ log0, d, by simp [hlog], hfp, ?_, ?_⟩
              · intro q hq
                rcases List.mem_append.mp hq with hq1 | hq2
                · exact hm2 q hq1
                · exact hma q hq2
              · simp only [probeBases, hre2 _ _ _ hfp, hrerun, ProbeRes.withLog]
          | invalid p3 log3 => rw [hrec] at h; simp [ProbeRes.withLog] at h
          | nothing log3 => rw [hrec] at h; simp [ProbeRes.withLog] at h

theorem probeBases_nothing_rerun (fs : FsPath → FileProbe) (cache : Cache) (search : FsPath)
    (exts : List String) : ∀ (fbs : List String) (log : List FsPath),
    probeBases fs cache search exts fbs = .nothing log →
    MissAbsent fs cache log ∧
    ∀ (p0 : FsPath) (pkg0 : Package) (d0 : PkgDict), fs p0 = .found d0 →
      probeBases fs (dinsert p0 pkg0 cache) search exts fbs = .nothing log := by
  intro fbs
  induction fbs with
  | nil =>
      intro log h
      injection h with h1
      subst h1
      constructor
      · intro q hq
        cases hq
      · intro p0 pkg0 d0 hf0
        rfl
  | cons fb rest ih =>
      intro log h
      simp only [probeBases] at h
      cases hpe : probeExts fs cache search fb exts with
      | cacheHit pk2 p2 log2 =>
          simp only [hpe] at h
          exact ProbeRes.noConfusion h
      | loaded pk2 p2 log2 =>
          simp only [hpe] at h
          exact ProbeRes.noConfusion h
      | invalid p2 log2 =>
          simp only [hpe] at h
          exact ProbeRes.noConfusion h
      | nothing log2 =>
          simp only [hpe] at h
          cases hrec : probeBases fs cache search exts rest with
          | cacheHit pk3 p3 log3 => rw [hrec] at h; simp [ProbeRes.withLog] at h
          | loaded pk3 p3 log3 => rw [hrec] at h; simp [ProbeRes.withLog] at h
          | invalid p3 log3 => rw [hrec] at h; simp [ProbeRes.withLog] at h
          | nothing log3 =>
              rw [hrec] at h
              simp only [ProbeRes.withLog] at h
              injection h with h1
              subst h1
              obtain ⟨hma3, hre3⟩ := ih _ hrec
              obtain ⟨hma2, hre2⟩ := probeExts_nothing_rerun fs cache search fb exts _ hpe
              constructor
              · intro q hq
                rcases List.mem_append.mp hq with hq1 | hq2
                · exact hma2 q hq1
                · exact hma3 q hq2
              · intro p0 pkg0 d0 hf0
                simp only [probeBases, hre2 _ _ _ hf0, hre3 _ _ _ hf0, ProbeRes.withLog]

theorem loadLoop_rerun (fs : FsPath → FileProbe) (fbs exts : List String) (up : Bool)
    (root : FsPath) : ∀ (fuel : Nat) (cache : Cache) (search : FsPath) (pkg : Package)
    (p : FsPath) (cache2 : Cache) (log1 : List FsPath),
    loadLoop fs fbs exts up root fuel cache search = some (.ok pkg p, cache2, log1) →
    dlookup p cache2 = some pkg ∧
    (cache2 = cache ∨ ∃ q pk d, cache2 = dinsert q pk cache ∧ fs q = FileProbe.found d) ∧
    ∃ log2, loadLoop fs fbs exts up root fuel cache2 search = some (.ok pkg p, cache2, log2) ∧
      MissAbsent fs cache2 log2 := by
  intro fuel
  induction fuel with
  | zero =>
      intro cache search pkg p cache2 log1 h
      exact Option.noConfusion h
  | succ n ih =>
      intro cache search pkg p cache2 log1 h
      simp only [loadLoop] at h
      cases hpb : probeBases fs cache search exts fbs with
      | cacheHit pk2 p2 log2 =>
          simp only [hpb, Option.some.injEq, Prod.mk.injEq, LoadResult.ok.injEq] at h
          obtain ⟨⟨hA, hB⟩, hC, hD⟩ := h
          subst hA; subst hB; subst hC; subst hD
          obtain ⟨hl, hm⟩ := probeBases_cacheHit_inv fs cache search exts fbs _ _ _ hpb
          refine ⟨hl, Or.inl rfl, log2, ?_, hm⟩
          simp only [loadLoop, hpb]
      | loaded pk2 p2 log2 =>
          simp only [hpb, Option.some.injEq, Prod.mk.injEq, LoadResult.ok.injEq] at h
          obtain ⟨⟨hA, hB⟩, hC, hD⟩ := h
          subst hA; subst hB; subst hD
          obtain ⟨log0, d, hlog, hfp, hma, hrerun⟩ :=
            probeBases_loaded_rerun fs cache search exts fbs _ _ _ hpb
          subst hC
          refine ⟨dlookup_dinsert_self _ _ _, Or.inr ⟨p2, pk2, d, rfl, hfp⟩, log0, ?_, ?_⟩
          · simp only [loadLoop, hrerun]
          · exact MissAbsent_insert hma hfp pk2
      | invalid p2 log2 =>
          simp only [hpb, Option.some.injEq, Prod.mk.injEq] at h
          exact absurd h.1 (by intro hh; cases hh)
      | nothing log2 =>
          simp only [hpb] at h
          by_cases hup : up = true
          · rw [hup] at h
            simp only [if_true, append_singleton_isEmpty, Bool.false_eq_true, if_false,
              ite_false] at h
            cases hrec : loadLoop fs fbs exts up root n cache search.dropLast with
            | none =>
                rw [hup] at hrec
                rw [hrec] at h
                exact Option.noConfusion h
            | some t =>
                obtain ⟨r, c, l⟩ := t
                rw [hup] at hrec
                rw [hrec] at h
                simp only [Option.some.injEq, Prod.mk.injEq] at h
                obtain ⟨hr, hc, hl⟩ := h
                subst hr; subst hc; subst hl
                obtain ⟨hlk, hstep, log2d, hrun2d, hmad⟩ :=
                  ih cache search.dropLast pkg p c l (by rw [hup]; exact hrec)
                obtain ⟨hma2, hre2⟩ := probeBases_nothing_rerun fs cache search exts fbs _ hpb
                have hpb2 : probeBases fs c search exts fbs = .nothing log2 := by
                  rcases hstep with rfl | ⟨q, pk, d, rfl, hfq⟩
                  · exact hpb
                  · exact hre2 q pk d hfq
                have hma2x : MissAbsent fs c log2 := by
                  rcases hstep with rfl | ⟨q, pk, d, rfl, hfq⟩
                  · exact hma2
                  · exact MissAbsent_insert hma2 hfq pk
                refine ⟨hlk, hstep, log2 ++ log2d, ?_, ?_⟩
                · rw [hup] at hrun2d
                  simp only [loadLoop, hpb2, hup, if_true, append_singleton_isEmpty,
                    Bool.false_eq_true, if_false, ite_false, hrun2d]
                · intro q hq
                  rcases List.mem_append.mp hq with hq1 | hq2
                  · exact hma2x q hq1
                  · exact hmad q hq2
          · simp only [Bool.not_eq_true] at hup
            rw [hup] at h
            simp only [Bool.false_eq_true, if_false, ite_false, Option.some.injEq,
              Prod.mk.injEq] at h
            exact absurd h.1 (by intro hh; cases hh)

/-- C9: once a resolution has memoized a package under path p, running the
same resolution again with the resulting cache returns the identical cached
package record, every file-open the second run attempts hits an absent file
(so nothing is read or parsed), and path p itself is never opened: the
second run stops at the cache hit before any I/O on p. -/
theorem loadCore_cached_rerun (fs : FsPath → FileProbe) (cache : Cache) (root : FsPath)
    (fbs exts : List String) (up : Bool) (fuel : Nat) (pkg : Package) (p : FsPath)
    (cache2 : Cache) (log1 : List FsPath)
    (h : loadCore fs cache root fbs exts up fuel = some (.ok pkg p, cache2, log1)) :
    ∃ log2, loadCore fs cache2 root fbs exts up fuel = some (.ok pkg p, cache2, log2) ∧
      (∀ q ∈ log2, fs q = FileProbe.absent) ∧ p ∉ log2 := by
  simp only [loadCore] at h ⊢
  obtain ⟨hlk, _, log2, hrun, hma⟩ :=
    loadLoop_rerun fs fbs exts up root fuel cache root pkg p cache2 log1 h
  refine ⟨log2, hrun, fun q hq => (hma q hq).2, ?_⟩
  intro hp
  have hcontra := (hma p hp).1
  rw [hlk] at hcontra
  cases hcontra

/-- Witness for C9: a descriptor loaded once from disk, then re-resolved
out of the cache with no disk access at all. -/
theorem loadCore_cached_rerun_witness :
    loadCore
        (fun q => if q = ["home", "proj", "Coconut.json"]
          then FileProbe.found ⟨some "acme", none, none, none, none, none⟩
          else FileProbe.absent)
        [] ["home", "proj"] ["Coconut"] [".json"] false 1 =
      some (.ok ⟨"acme", none, none, none, none, none⟩ ["home", "proj", "Coconut.json"],
        [(["home", "proj", "Coconut.json"], ⟨"acme", none, none, none, none, none⟩)],
        [["home", "proj", "Coconut.json"]]) ∧
    ∃ log2, loadCore
        (fun q => if q = ["home", "proj", "Coconut.json"]
          then FileProbe.found ⟨some "acme", none, none, none, none, none⟩
          else FileProbe.absent)
        [(["home", "proj", "Coconut.json"], ⟨"acme", none, none, none, none, none⟩)]
        ["home", "proj"] ["Coconut"] [".json"] false 1 =
      some (.ok ⟨"acme", none, none, none, none, none⟩ ["home", "proj", "Coconut.json"],
        [(["home", "proj", "Coconut.json"], ⟨"acme", none, none, none, none, none⟩)],
        log2) ∧
      (∀ q ∈ log2,
        (fun q => if q = ["home", "proj", "Coconut.json"]
          then FileProbe.found ⟨some "acme", none, none, none, none, none⟩
          else FileProbe.absent) q = FileProbe.absent) ∧
      ["home", "proj", "Coconut.json"] ∉ log2 :=
  ⟨by decide,
   loadCore_cached_rerun
     (fun q => if q = ["home", "proj", "Coconut.json"]
       then FileProbe.found ⟨some "acme", none, none, none, none, none⟩
       else FileProbe.absent)
     [] ["home", "proj"] ["Coconut"] [".json"] false 1
     ⟨"acme", none, none, none, none, none⟩ ["home", "proj", "Coconut.json"]
     [(["home", "proj", "Coconut.json"], ⟨"acme", none, none, none, none, none⟩)]
     [["home", "proj", "Coconut.json"]] (by decide)⟩

/-- Witness for C8: the first extension candidate is absent, the second is
present but lacks the name field; resolution stops with the invalid error
naming the second candidate and the third extension is never probed. -/
theorem loadCore_missing_name_fatal_witness :
    (∀ x ∈ [".a"],
      dlookup (["r"] ++ ["Coconut" ++ x]) ([] : Cache) = none ∧
      (fun q => if q = ["r", "Coconut.b"]
        then FileProbe.found ⟨none, none, none, none, none, none⟩
        else FileProbe.absent) (["r"] ++ ["Coconut" ++ x]) = FileProbe.absent) ∧
    dlookup (["r"] ++ ["Coconut" ++ ".b"]) ([] : Cache) = none ∧
    (fun q => if q = ["r", "Coconut.b"]
      then FileProbe.found ⟨none, none, none, none, none, none⟩
      else FileProbe.absent) (["r"] ++ ["Coconut" ++ ".b"]) =
        FileProbe.found ⟨none, none, none, none, none, none⟩ ∧
    nameTruthy (⟨none, none, none, none, none, none⟩ : PkgDict).name = false ∧
    loadLoop
      (fun q => if q = ["r", "Coconut.b"]
        then FileProbe.found ⟨none, none, none, none, none, none⟩
        else FileProbe.absent)
      ["Coconut"] ([".a"] ++ ".b" :: [".c"]) true ["r"] (0 + 1) [] ["r"] =
      some (.invalid (["r"] ++ ["Coconut" ++ ".b"]), [],
        [".a"].map (fun x => ["r"] ++ ["Coconut" ++ x]) ++ [["r"] ++ ["Coconut" ++ ".b"]]) :=
  ⟨by decide, by decide, by decide, by decide,
   loadCore_missing_name_fatal
     (fun q => if q = ["r", "Coconut.b"]
       then FileProbe.found ⟨none, none, none, none, none, none⟩
       else FileProbe.absent)
     [] ["r"] ["r"] "Coconut" [] ".b" [".a"] [".c"]
     ⟨none, none, none, none, none, none⟩ true 0
     (by decide) (by decide) (by decide) (by decide)⟩
